import Mathlib

/-!
Verification of the life-log temporal query engine, cursor pagination,
tag/log integrity rules, search and stats aggregation.

Strings from the TypeScript source are modelled as lists of characters
(`Str`), which matches the byte-wise BINARY collation SQLite (Cloudflare D1)
uses for `TEXT` comparisons on the ASCII identifiers involved.  Machine
numbers are modelled as `Int` (timestamps, epoch milliseconds) and `Rat`
(JavaScript `Number` results).  The database is modelled as a list of rows;
an SQL `ORDER BY ... DESC` query is modelled by `List.insertionSort` with
the corresponding relation, and `WHERE` / `LIMIT` by `List.filter` /
`List.take`.
-/

namespace LifeLog

/-- Strings are modelled as lists of characters. -/
abbrev Str := List Char

/-! ### String comparison (SQLite BINARY collation, byte-wise) -/

/-- Strict lexicographic comparison of strings, as SQLite's BINARY collation
compares `TEXT` values (byte-wise; identical to code-point order on ASCII). -/
def strLtB : Str → Str → Bool
  | [], [] => false
  | [], _ :: _ => true
  | _ :: _, [] => false
  | a :: as, b :: bs => if a < b then true else if b < a then false else strLtB as bs

theorem strLtB_irrefl (s : Str) : strLtB s s = false := by
  induction s with
  | nil => rfl
  | cons a as ih => simp [strLtB, lt_irrefl, ih]

theorem strLtB_trans {a b c : Str} (h1 : strLtB a b = true) (h2 : strLtB b c = true) :
    strLtB a c = true := by
  induction a generalizing b c with
  | nil =>
    cases b with
    | nil => simp [strLtB] at h1
    | cons y ys =>
      cases c with
      | nil => simp [strLtB] at h2
      | cons z zs => simp [strLtB]
  | cons x xs ih =>
    cases b with
    | nil => simp [strLtB] at h1
    | cons y ys =>
      cases c with
      | nil => simp [strLtB] at h2
      | cons z zs =>
        simp only [strLtB] at h1 h2 ⊢
        rcases lt_trichotomy x y with hxy | hxy | hxy
        · rcases lt_trichotomy y z with hyz | hyz | hyz
          · simp [lt_trans hxy hyz]
          · subst hyz; simp [hxy]
          · simp [hyz, not_lt_of_gt hyz] at h2
        · subst hxy
          rcases lt_trichotomy x z with hyz | hyz | hyz
          · simp [hyz]
          · subst hyz
            simp [lt_irrefl] at h1 h2 ⊢
            exact ih h1 h2
          · simp [hyz, not_lt_of_gt hyz] at h2
        · simp [hxy, not_lt_of_gt hxy] at h1

theorem strLtB_eq_of_not {a b : Str} (h1 : strLtB a b = false) (h2 : strLtB b a = false) :
    a = b := by
  induction a generalizing b with
  | nil =>
    cases b with
    | nil => rfl
    | cons y ys => simp [strLtB] at h1
  | cons x xs ih =>
    cases b with
    | nil => simp [strLtB] at h2
    | cons y ys =>
      simp only [strLtB] at h1 h2
      rcases lt_trichotomy x y with hxy | hxy | hxy
      · simp [hxy] at h1
      · subst hxy
        simp [lt_irrefl] at h1 h2
        exact congrArg (x :: ·) (ih h1 h2)
      · simp [hxy, not_lt_of_gt hxy] at h2

/-! ### Data model (from `src/unnamed/part_009`, the drizzle schema) -/

/-- The closed set of log types (`logTypes` in the schema). -/
inductive LogType
  | activity | wake_up | meal | location | thought | reading | media | bookmark
deriving DecidableEq, Repr

/-- A row of the `logs` table.  `metadata` is an optional JSON object,
modelled as an association list from keys to values that are either a
string or `null` (the only shapes the core inspects). -/
structure Log where
  id : Str
  type : LogType
  content : Str
  timestamp : Int
  metadata : Option (List (Str × Option Str))
  createdAt : Int
  updatedAt : Int
deriving DecidableEq, Repr

/-- A row of the `tags` table. -/
structure Tag where
  id : Str
  name : Str
  color : Option Str
  createdAt : Int
deriving DecidableEq, Repr

/-! ### The (timestamp DESC, id DESC) sort key -/

/-- The sort key of a log: the pair used by `orderBy(desc(logs.timestamp), desc(logs.id))`. -/
def key (l : Log) : Int × Str := (l.timestamp, l.id)

/-- Strict lexicographic order on sort keys:
`ts < ts' OR (ts = ts' AND id < id')`, with SQLite string comparison on ids. -/
def keyLtB (x y : Int × Str) : Bool :=
  decide (x.1 < y.1) || (decide (x.1 = y.1) && strLtB x.2 y.2)

theorem keyLtB_irrefl (x : Int × Str) : keyLtB x x = false := by
  simp [keyLtB, strLtB_irrefl]

theorem keyLtB_trans {x y z : Int × Str} (h1 : keyLtB x y = true) (h2 : keyLtB y z = true) :
    keyLtB x z = true := by
  simp only [keyLtB, Bool.or_eq_true, Bool.and_eq_true, decide_eq_true_eq] at h1 h2 ⊢
  rcases h1 with h1 | ⟨h1e, h1s⟩
  · rcases h2 with h2 | ⟨h2e, h2s⟩
    · exact Or.inl (lt_trans h1 h2)
    · exact Or.inl (h2e ▸ h1)
  · rcases h2 with h2 | ⟨h2e, h2s⟩
    · exact Or.inl (h1e ▸ h2)
    · exact Or.inr ⟨h1e.trans h2e, strLtB_trans h1s h2s⟩

theorem keyLtB_eq_of_not {x y : Int × Str} (h1 : keyLtB x y = false) (h2 : keyLtB y x = false) :
    x = y := by
  simp only [keyLtB, Bool.or_eq_false_iff, Bool.and_eq_false_iff, decide_eq_false_iff_not,
    not_lt] at h1 h2
  obtain ⟨h1le, h1r⟩ := h1
  obtain ⟨h2le, h2r⟩ := h2
  have hts : x.1 = y.1 := le_antisymm h2le h1le
  rcases h1r with h1r | h1r
  · exact absurd hts h1r
  · rcases h2r with h2r | h2r
    · exact absurd hts.symm h2r
    · have hid : x.2 = y.2 := strLtB_eq_of_not h1r h2r
      exact Prod.ext hts hid

/-! ### Sorting (ORDER BY timestamp DESC, id DESC) -/

/-- `sortRel a b` holds when `a` may precede `b` in the descending order:
the key of `a` is not smaller than the key of `b`. -/
def sortRel (a b : Log) : Prop := keyLtB (key a) (key b) = false

instance : DecidableRel sortRel := fun a b =>
  inferInstanceAs (Decidable (keyLtB (key a) (key b) = false))

instance : IsTotal Log sortRel := by
  constructor
  intro a b
  by_cases h : keyLtB (key a) (key b) = true
  · right
    by_cases h2 : keyLtB (key b) (key a) = true
    · have := keyLtB_trans h h2
      rw [keyLtB_irrefl] at this
      exact absurd this (by simp)
    · exact Bool.eq_false_iff.mpr h2
  · left
    exact Bool.eq_false_iff.mpr h

instance : IsTrans Log sortRel := by
  constructor
  intro a b c hab hbc
  unfold sortRel at hab hbc ⊢
  by_cases hac : keyLtB (key a) (key c) = true
  · exfalso
    by_cases hcb : keyLtB (key c) (key b) = true
    · have := keyLtB_trans hac hcb
      rw [hab] at this
      exact absurd this (by simp)
    · have hbc' : key b = key c :=
        keyLtB_eq_of_not hbc (Bool.eq_false_iff.mpr hcb)
      rw [← hbc'] at hac
      rw [hab] at hac
      exact absurd hac (by simp)
  · exact Bool.eq_false_iff.mpr hac

/-- The result of `ORDER BY timestamp DESC, id DESC` over the stored rows. -/
def sortLogs (store : List Log) : List Log := List.insertionSort sortRel store

theorem sortLogs_sorted (store : List Log) : (sortLogs store).Pairwise sortRel :=
  List.sorted_insertionSort sortRel store

theorem sortLogs_perm (store : List Log) : List.Perm (sortLogs store) store :=
  List.perm_insertionSort sortRel store

/-- Strictly-descending key order between two logs. -/
def sDesc (a b : Log) : Prop := keyLtB (key b) (key a) = true

theorem pairwise_sDesc_of_sorted {L : List Log}
    (hs : L.Pairwise sortRel) (hnd : (L.map Log.id).Nodup) : L.Pairwise sDesc := by
  have hids : L.Pairwise (fun a b => a.id ≠ b.id) := by
    rw [List.Nodup, List.pairwise_map] at hnd
    exact hnd
  have := hs.and hids
  refine this.imp ?_
  rintro a b ⟨hr, hne⟩
  unfold sortRel at hr
  unfold sDesc
  by_cases h : keyLtB (key b) (key a) = true
  · exact h
  · exfalso
    have hk : key a = key b := keyLtB_eq_of_not hr (Bool.eq_false_iff.mpr h)
    exact hne (congrArg Prod.snd hk)

/-! ### Cursor-based pagination (GET /api/logs, GET /api/tags/:id/logs) -/

/-- The SQL condition added for a decoded cursor `(cursorTs, cursorId)`:
`lt(logs.timestamp, cursorTs) OR (eq(logs.timestamp, cursorTs) AND lt(logs.id, cursorId))`.
Absent cursor adds no condition. -/
def cursorCond (c : Option (Int × Str)) (l : Log) : Bool :=
  match c with
  | none => true
  | some (cursorTs, cursorId) =>
    decide (l.timestamp < cursorTs) || (decide (l.timestamp = cursorTs) && strLtB l.id cursorId)

theorem cursorCond_some (c : Int × Str) (l : Log) :
    cursorCond (some c) l = keyLtB (key l) c := rfl

/-- Response shape of a paginated listing: `{items, nextCursor, hasMore}`. -/
structure Page where
  items : List Log
  nextCursor : Option (Int × Str)
  hasMore : Bool
deriving DecidableEq, Repr

/-- The rows fetched by one paginated query: filter by the route's condition
and the cursor condition, order by `(timestamp DESC, id DESC)`, and fetch
`limitNum + 1` rows (one extra to determine `hasMore`). -/
def pageQuery (store : List Log) (cond : Log → Bool) (limitNum : Nat)
    (c : Option (Int × Str)) : List Log :=
  ((sortLogs store).filter (fun l => cond l && cursorCond c l)).take (limitNum + 1)

/-- One paginated listing request: runs the overfetching query, derives
`hasMore`, truncates the overfetch row, and derives `nextCursor` from the
last returned item. -/
def listPage (store : List Log) (cond : Log → Bool) (limitNum : Nat)
    (c : Option (Int × Str)) : Page :=
  let result := pageQuery store cond limitNum c
  let hasMore : Bool := decide (limitNum < result.length)
  let items := if hasMore then result.take limitNum else result
  let nextCursor : Option (Int × Str) :=
    if hasMore then
      match items.getLast? with
      | some l => some (l.timestamp, l.id)
      | none => none
    else none
  ⟨items, nextCursor, hasMore⟩

/-- All stored rows matching the route's condition, in descending key order:
the canonical full listing that pagination should reconstitute. -/
def baseList (store : List Log) (cond : Log → Bool) : List Log :=
  (sortLogs store).filter cond

theorem baseList_pairwise_sDesc (store : List Log) (cond : Log → Bool)
    (hnd : (store.map Log.id).Nodup) : (baseList store cond).Pairwise sDesc := by
  have hperm : List.Perm (List.map Log.id (sortLogs store)) (List.map Log.id store) :=
    (sortLogs_perm store).map Log.id
  have hnd' : ((sortLogs store).map Log.id).Nodup := hperm.nodup_iff.mpr hnd
  have hs := pairwise_sDesc_of_sorted (sortLogs_sorted store) hnd'
  exact hs.sublist (List.filter_sublist _)

/-- In a strictly-descending list `f ++ x :: t`, the elements with key
strictly below the key of `x` are exactly the elements of `t`. -/
theorem filter_keyLt_of_append {f t : List Log} {x : Log}
    (hL : (f ++ x :: t).Pairwise sDesc) :
    (f ++ x :: t).filter (fun l => keyLtB (key l) (key x)) = t := by
  induction f with
  | nil =>
    simp only [List.nil_append]
    rw [List.filter_cons]
    rw [keyLtB_irrefl]
    simp only [if_neg (by simp : ¬ (false = true))]
    apply List.filter_eq_self.mpr
    intro a ha
    exact (List.pairwise_cons.mp hL).1 a ha
  | cons a f ih =>
    rw [List.cons_append, List.filter_cons]
    have hx : x ∈ f ++ x :: t := by simp
    have hdesc : keyLtB (key x) (key a) = true :=
      (List.pairwise_cons.mp hL).1 x hx
    have hnot : keyLtB (key a) (key x) = false := by
      by_cases h : keyLtB (key a) (key x) = true
      · have := keyLtB_trans h hdesc
        rw [keyLtB_irrefl] at this
        exact absurd this (by simp)
      · exact Bool.eq_false_iff.mpr h
    rw [hnot]
    simp only [if_neg (by simp : ¬ (false = true))]
    exact ih (List.pairwise_cons.mp hL).2

/-- Restricting the base listing by the key of an element `x` of a
cursor-filtered listing refines that filtered listing. -/
theorem filter_cursor_key {store : List Log} {cond : Log → Bool}
    {c : Option (Int × Str)} {x : Log}
    (hx : x ∈ (baseList store cond).filter (cursorCond c)) :
    (baseList store cond).filter (cursorCond (some (key x))) =
      ((baseList store cond).filter (cursorCond c)).filter
        (fun l => keyLtB (key l) (key x)) := by
  rw [List.filter_filter]
  apply List.filter_congr
  intro y _
  rw [cursorCond_some]
  cases hq : keyLtB (key y) (key x)
  · simp
  · have hcx : cursorCond c y = true := by
      cases c with
      | none => rfl
      | some ck =>
        have hmc : cursorCond (some ck) x = true := (List.mem_filter.mp hx).2
        rw [cursorCond_some] at hmc
        rw [cursorCond_some]
        exact keyLtB_trans hq hmc
    simp [hcx]

/-- A nonempty `take n` prefix decomposes a list around its last element. -/
theorem take_getLast_decomp {L : List Log} {n : Nat} (hn1 : 1 ≤ n) (hlt : n ≤ L.length) :
    ∃ f x, L.take n = f ++ [x] ∧ L = f ++ x :: L.drop n ∧ (L.take n).getLast? = some x := by
  have hne : L.take n ≠ [] := by
    intro h
    have := congrArg List.length h
    simp only [List.length_take, List.length_nil] at this
    omega
  have h1 : L.take n = (L.take n).dropLast ++ [(L.take n).getLast hne] :=
    (List.dropLast_append_getLast hne).symm
  refine ⟨(L.take n).dropLast, (L.take n).getLast hne, h1, ?_, ?_⟩
  · calc L = L.take n ++ L.drop n := (List.take_append_drop n L).symm
      _ = ((L.take n).dropLast ++ [(L.take n).getLast hne]) ++ L.drop n := by
            conv_lhs => rw [h1]
      _ = (L.take n).dropLast ++ (L.take n).getLast hne :: L.drop n := by
            rw [List.append_assoc, List.singleton_append]
  · exact List.getLast?_eq_getLast _ hne

theorem listPage_final {store : List Log} {cond : Log → Bool} {n : Nat}
    {c : Option (Int × Str)} (h : (pageQuery store cond n c).length ≤ n) :
    listPage store cond n c = ⟨pageQuery store cond n c, none, false⟩ := by
  unfold listPage
  have hd : decide (n < (pageQuery store cond n c).length) = false := by
    simp only [decide_eq_false_iff_not, not_lt]
    exact h
  simp [hd]

theorem listPage_more {store : List Log} {cond : Log → Bool} {n : Nat}
    {c : Option (Int × Str)} (h : n < (pageQuery store cond n c).length) :
    listPage store cond n c =
      ⟨(pageQuery store cond n c).take n,
       match ((pageQuery store cond n c).take n).getLast? with
       | some l => some (l.timestamp, l.id)
       | none => none,
       true⟩ := by
  unfold listPage
  have hd : decide (n < (pageQuery store cond n c).length) = true := by simpa using h
  simp [hd]

theorem keyLtB_true_iff (x y : Int × Str) :
    keyLtB x y = true ↔ x.1 < y.1 ∨ (x.1 = y.1 ∧ strLtB x.2 y.2 = true) := by
  simp [keyLtB]

/-- When everything fits on one page, the page returns the whole listing. -/
theorem listPage_items_all {store : List Log} {cond : Log → Bool} {n : Nat}
    (hfit : (baseList store cond).length ≤ n) :
    (listPage store cond n none).items = baseList store cond := by
  have hpq : pageQuery store cond n none = baseList store cond := by
    unfold pageQuery baseList
    have hpt : (fun l => cond l && cursorCond none l) = cond := by
      funext l
      simp [cursorCond]
    rw [hpt]
    unfold baseList at hfit
    exact List.take_of_length_le (by omega)
  rw [listPage_final (by rw [hpq]; exact hfit)]
  exact hpq

/-! ### The day-listing window (GET /api/logs)

The route computes
`startUtc = fromZonedTime(date + "T00:00:00", tz)` and
`endUtc = fromZonedTime(nextDate + "T00:00:00", tz) - 1`,
then filters with `gte(logs.timestamp, startUtc)` and `lte(logs.timestamp, endUtc)`.
`fromZonedTime` (date-fns-tz over the IANA database) is abstracted as a
function `midnight : Int → Int` giving the UTC instant in epoch
milliseconds of the local civil midnight of each calendar day of the zone;
no day length is assumed, only that the next local midnight comes strictly
later. -/

def dayWindowStart (midnight : Int → Int) (d : Int) : Int := midnight d

def dayWindowEnd (midnight : Int → Int) (d : Int) : Int := midnight (d + 1) - 1

/-- The `WHERE` conditions of the day listing:
`gte(logs.timestamp, startUtc), lte(logs.timestamp, endUtc)`. -/
def dayWindowCond (midnight : Int → Int) (d : Int) (l : Log) : Bool :=
  decide (dayWindowStart midnight d ≤ l.timestamp) &&
    decide (l.timestamp ≤ dayWindowEnd midnight d)

/-- `GET /api/logs?date=...`: the paginated day listing. -/
def listLogsByDay (midnight : Int → Int) (d : Int) (store : List Log)
    (limitNum : Nat) (c : Option (Int × Str)) : Page :=
  listPage store (dayWindowCond midnight d) limitNum c

/-- C1: for every resolvable zone (any strictly monotone local-midnight
function, so in particular on 23- or 25-hour DST transition days) the
day-listing resolver returns `startUtcMs` equal to the UTC instant of local
midnight of the day and `endUtcMs` one millisecond before the following
local midnight, with `startUtcMs ≤ endUtcMs`, and the listing filter
selects exactly the stored entries with
`startUtcMs ≤ timestamp ≤ endUtcMs`.  No fixed 86,400,000 ms day length is
assumed anywhere. -/
theorem day_window_resolver (midnight : Int → Int) (d : Int) (store : List Log) (n : Nat)
    (hmono : midnight d < midnight (d + 1))
    (hfit : (baseList store (dayWindowCond midnight d)).length ≤ n) :
    dayWindowStart midnight d = midnight d ∧
    dayWindowEnd midnight d = midnight (d + 1) - 1 ∧
    dayWindowStart midnight d ≤ dayWindowEnd midnight d ∧
    ∀ l, l ∈ (listLogsByDay midnight d store n none).items ↔
      (l ∈ store ∧ dayWindowStart midnight d ≤ l.timestamp ∧
        l.timestamp ≤ dayWindowEnd midnight d) := by
  refine ⟨rfl, rfl, ?_, ?_⟩
  · unfold dayWindowStart dayWindowEnd
    omega
  · intro l
    unfold listLogsByDay
    rw [listPage_items_all hfit]
    unfold baseList
    rw [List.mem_filter]
    constructor
    · rintro ⟨hmem, hcond⟩
      refine ⟨(sortLogs_perm store).mem_iff.mp hmem, ?_⟩
      unfold dayWindowCond at hcond
      simp only [Bool.and_eq_true, decide_eq_true_eq] at hcond
      exact hcond
    · rintro ⟨hmem, h1, h2⟩
      refine ⟨(sortLogs_perm store).mem_iff.mpr hmem, ?_⟩
      unfold dayWindowCond
      simp only [Bool.and_eq_true, decide_eq_true_eq]
      exact ⟨h1, h2⟩

/-- Local midnights around the 2025-03-09 US spring-forward DST transition
in America/New_York: day `0` is 2025-03-09 (EST midnight, 05:00 UTC,
epoch 1741496400000 ms), day `1` is 2025-03-10 (EDT midnight, 04:00 UTC,
epoch 1741579200000 ms) — a 23-hour local day, not 86,400,000 ms. -/
def nycMidnightMar2025 : Int → Int := fun d =>
  if d ≤ 0 then 1741496400000 + 86400000 * d else 1741579200000 + 86400000 * (d - 1)

/-- A small store around the DST transition day. -/
def demoDayStore : List Log :=
  [⟨['A'], .wake_up, ['u'], 1741496400000, none, 0, 0⟩,
   ⟨['B'], .meal, ['m'], 1741579200000, none, 0, 0⟩]

/-- Witness for C1 at the 23-hour day 2025-03-09 in America/New_York. -/
theorem day_window_resolver_witness :
    dayWindowStart nycMidnightMar2025 0 = nycMidnightMar2025 0 ∧
    dayWindowEnd nycMidnightMar2025 0 = nycMidnightMar2025 1 - 1 ∧
    dayWindowStart nycMidnightMar2025 0 ≤ dayWindowEnd nycMidnightMar2025 0 ∧
    ∀ l, l ∈ (listLogsByDay nycMidnightMar2025 0 demoDayStore 50 none).items ↔
      (l ∈ demoDayStore ∧ dayWindowStart nycMidnightMar2025 0 ≤ l.timestamp ∧
        l.timestamp ≤ dayWindowEnd nycMidnightMar2025 0) := by
  have h := day_window_resolver nycMidnightMar2025 0 demoDayStore 50
    (by decide) (by decide)
  simpa using h

/-! ### Stats aggregation (GET /api/stats) -/

/-- The stats route's today-count window:
`gte(logs.timestamp, todayStart), lt(logs.timestamp, tomorrowStart)`. -/
def statsTodayFilter (todayStart tomorrowStart : Int) (store : List Log) : List Log :=
  store.filter (fun l =>
    decide (todayStart ≤ l.timestamp) && decide (l.timestamp < tomorrowStart))

/-- C5: for the same timezone and instant (hence the same local-midnight
function and the same current local day `d`), the stats aggregator's
today-count window selects exactly the same entries as the day-listing
window for that day: `todayStart ≤ ts < tomorrowStart` is equivalent to
`startUtc ≤ ts ≤ endUtc` over integer millisecond timestamps. -/
theorem stats_today_agrees_with_listing (midnight : Int → Int) (d : Int) (store : List Log) :
    statsTodayFilter (midnight d) (midnight (d + 1)) store =
      store.filter (dayWindowCond midnight d) := by
  unfold statsTodayFilter
  apply List.filter_congr
  intro l _
  unfold dayWindowCond dayWindowStart dayWindowEnd
  congr 1
  rw [decide_eq_decide]
  omega

/-! ### JavaScript string and number primitives

The routes use `String.prototype.trim`, `String.prototype.split`,
`Array.prototype.join` and the `Number(string)` conversion.  They are
modelled here over `Str`. -/

/-- The whitespace characters trimmed by JS `String.prototype.trim`
(ECMAScript WhiteSpace and LineTerminator; the common ones). -/
def jsWhitespaceChar (c : Char) : Bool :=
  c = ' ' || c = '\t' || c = '\n' || c = '\r' ||
    c = '\x0b' || c = '\x0c' || c = ' ' || c = '﻿'

/-- JS `String.prototype.trim`. -/
def jsTrim (s : Str) : Str :=
  ((s.dropWhile jsWhitespaceChar).reverse.dropWhile jsWhitespaceChar).reverse

/-- JS `string.split(sep)` for a single-character separator, as the first
part plus the remaining parts: `splitOnChar sep s = (parts[0], parts.slice(1))`. -/
def splitOnChar (sep : Char) : Str → Str × List Str
  | [] => ([], [])
  | c :: rest =>
    if c = sep then ([], (splitOnChar sep rest).1 :: (splitOnChar sep rest).2)
    else (c :: (splitOnChar sep rest).1, (splitOnChar sep rest).2)

theorem splitOnChar_cons (sep c : Char) (rest : Str) :
    splitOnChar sep (c :: rest) =
      if c = sep then ([], (splitOnChar sep rest).1 :: (splitOnChar sep rest).2)
      else (c :: (splitOnChar sep rest).1, (splitOnChar sep rest).2) := rfl

/-- JS `parts.join("_")`. -/
def joinParts : List Str → Str
  | [] => []
  | [p] => p
  | p :: ps => p ++ '_' :: joinParts ps

/-- The timestamp half of a cursor: `cursor.split("_")[0]`. -/
def cursorTsPart (s : Str) : Str := (splitOnChar '_' s).1

/-- The id half of a cursor: `cursor.split("_").slice(1).join("_")`. -/
def cursorIdPart (s : Str) : Str :=
  match splitOnChar '_' s with
  | (_, ps) => joinParts ps

theorem splitOnChar_append {sep : Char} {a : Str} (b : Str) (h : sep ∉ a) :
    splitOnChar sep (a ++ sep :: b) =
      (a, (splitOnChar sep b).1 :: (splitOnChar sep b).2) := by
  induction a with
  | nil =>
    rw [List.nil_append, splitOnChar_cons, if_pos rfl]
  | cons c a ih =>
    have hc : c ≠ sep := fun hcs => h (hcs ▸ List.mem_cons_self c a)
    have ha : sep ∉ a := fun hs => h (List.mem_cons_of_mem c hs)
    rw [List.cons_append, splitOnChar_cons, if_neg hc, ih ha]

theorem joinParts_split (b : Str) :
    joinParts ((splitOnChar '_' b).1 :: (splitOnChar '_' b).2) = b := by
  induction b with
  | nil => rfl
  | cons c r ih =>
    rw [splitOnChar_cons]
    by_cases hc : c = '_'
    · rw [if_pos hc]
      have h1 : joinParts ([] :: (splitOnChar '_' r).1 :: (splitOnChar '_' r).2) =
          [] ++ '_' :: joinParts ((splitOnChar '_' r).1 :: (splitOnChar '_' r).2) := rfl
      rw [h1, ih, List.nil_append, hc]
    · rw [if_neg hc]
      cases hps : (splitOnChar '_' r).2 with
      | nil =>
        rw [hps] at ih
        have h1 : (splitOnChar '_' r).1 = r := ih
        show c :: (splitOnChar '_' r).1 = c :: r
        rw [h1]
      | cons q qs =>
        rw [hps] at ih
        show (c :: (splitOnChar '_' r).1) ++ '_' :: joinParts (q :: qs) = c :: r
        have h1 : (splitOnChar '_' r).1 ++ '_' :: joinParts (q :: qs) = r := ih
        rw [List.cons_append, h1]

/-- JS numbers as produced by `Number(string)`. -/
inductive JSNumber
  | nan
  | posInf
  | negInf
  | num (q : Rat)
deriving DecidableEq, Repr

/-- Decimal digit string to natural number. -/
def digitsToNat (s : Str) : Nat :=
  s.foldl (fun a c => 10 * a + (c.toNat - 48)) 0

/-- A nonempty all-digit string, as a natural number. -/
def parseNatDigits (s : Str) : Option Nat :=
  if s ≠ [] ∧ s.all Char.isDigit then some (digitsToNat s) else none

/-- Digit value in a radix, for `0x` / `0o` / `0b` literals. -/
def radixDigitVal (radix : Nat) (c : Char) : Option Nat :=
  let v : Option Nat :=
    if '0' ≤ c ∧ c ≤ '9' then some (c.toNat - 48)
    else if 'a' ≤ c ∧ c ≤ 'f' then some (c.toNat - 87)
    else if 'A' ≤ c ∧ c ≤ 'F' then some (c.toNat - 55)
    else none
  match v with
  | some d => if d < radix then some d else none
  | none => none

/-- A nonempty string of digits of the given radix, as a natural number. -/
def parseRadixNat (radix : Nat) : Str → Option Nat
  | [] => none
  | [c] => radixDigitVal radix c
  | c :: rest =>
    match radixDigitVal radix c, parseRadixNat radix rest with
    | some d, some v => some (radix ^ rest.length * d + v)
    | _, _ => none

/-- Split a decimal literal at its first exponent marker `e`/`E`. -/
def splitExpMarker : Str → Str × Option Str
  | [] => ([], none)
  | c :: rest =>
    if c = 'e' ∨ c = 'E' then ([], some rest)
    else (c :: (splitExpMarker rest).1, (splitExpMarker rest).2)

/-- `DecimalDigits . DecimalDigits?` / `. DecimalDigits` / `DecimalDigits`. -/
def parseMantissa (m : Str) : Option Rat :=
  match splitOnChar '.' m with
  | (ip, []) => (parseNatDigits ip).map (fun v => (v : Rat))
  | (ip, [fp]) =>
    if ip = [] ∧ fp = [] then none
    else if ip.all Char.isDigit ∧ fp.all Char.isDigit then
      some ((digitsToNat ip : Rat) + (digitsToNat fp : Rat) / (10 : Rat) ^ fp.length)
    else none
  | _ => none

/-- Signed exponent digits after `e`/`E`. -/
def parseExpDigits : Str → Option Int
  | '+' :: r => (parseNatDigits r).map (fun v => (v : Int))
  | '-' :: r => (parseNatDigits r).map (fun v => -(v : Int))
  | r => (parseNatDigits r).map (fun v => (v : Int))

/-- `StrDecimalLiteral` without sign or `Infinity`. -/
def parseDecimalLit (s : Str) : Option Rat :=
  match splitExpMarker s with
  | (m, none) => parseMantissa m
  | (m, some e) =>
    match parseMantissa m, parseExpDigits e with
    | some q, some ex => some (q * (10 : Rat) ^ ex)
    | _, _ => none

/-- The characters of `"Infinity"`. -/
def infinityChars : Str := "Infinity".toList

/-- An optionally signed decimal literal or `Infinity`. -/
def parseSignedDecimal (t : Str) : JSNumber :=
  let unsignedPart : Str → Bool → JSNumber := fun r neg =>
    if r = infinityChars then (if neg then .negInf else .posInf)
    else
      match parseDecimalLit r with
      | some q => .num (if neg then -q else q)
      | none => .nan
  match t with
  | '+' :: r => unsignedPart r false
  | '-' :: r => unsignedPart r true
  | r => unsignedPart r false

/-- The trimmed remainder of the JS `Number(string)` conversion: an empty
remainder is `0`; `0x`/`0o`/`0b` prefixes introduce unsigned non-decimal
integer literals; otherwise an optionally signed decimal literal (with
optional fraction and exponent) or `Infinity`; anything else is `NaN`. -/
def jsNumberOfTrimmed (t : Str) : JSNumber :=
  match t with
  | [] => .num 0
  | '0' :: c :: rest =>
    if c = 'x' ∨ c = 'X' then ((parseRadixNat 16 rest).map (fun v => JSNumber.num v)).getD .nan
    else if c = 'o' ∨ c = 'O' then ((parseRadixNat 8 rest).map (fun v => JSNumber.num v)).getD .nan
    else if c = 'b' ∨ c = 'B' then ((parseRadixNat 2 rest).map (fun v => JSNumber.num v)).getD .nan
    else parseSignedDecimal t
  | _ => parseSignedDecimal t

/-- The JS `Number(string)` conversion: trims JS whitespace, then reads the
remainder as a numeric literal. -/
def jsNumber (s : Str) : JSNumber := jsNumberOfTrimmed (jsTrim s)

/-- JS `isNaN(x)` for a converted number. -/
def jsIsNaN : JSNumber → Bool
  | .nan => true
  | _ => false

/-- JS `x <= 0` for a converted number (`NaN <= 0` is false). -/
def jsLeZero : JSNumber → Bool
  | .nan => false
  | .posInf => false
  | .negInf => true
  | .num q => decide (q ≤ 0)

/-- JS `Number.isFinite(x)`. -/
def jsIsFinite : JSNumber → Bool
  | .num _ => true
  | _ => false

/-! ### Cursor codec and limit handling (GET /api/logs) -/

/-- One character of Crockford's base32 alphabet
(`[0-9A-HJKMNP-TV-Z]`: digits and uppercase letters except I, L, O, U). -/
def ulidCheckChar (c : Char) : Bool :=
  ((decide ('0' ≤ c) && decide (c ≤ '9')) || (decide ('A' ≤ c) && decide (c ≤ 'Z'))) &&
    !(decide (c = 'I') || decide (c = 'L') || decide (c = 'O') || decide (c = 'U'))

/-- The ULID regex `^[0-9A-HJKMNP-TV-Z]{26}$`. -/
def ulidCheck (s : Str) : Bool := decide (s.length = 26) && s.all ulidCheckChar

/-- Result of the route's cursor-parameter handling. -/
inductive CursorDecode
  | invalid
  | ok (c : Option (JSNumber × Str))
deriving DecidableEq, Repr

/-- The cursor handling of the listing routes: when the `cursor` query
parameter is truthy (present and nonempty), split it on `_`, convert the
first part with `Number`, re-join the remaining parts as the id, and fail
with `Invalid cursor` when the number is NaN or `≤ 0` or the id fails the
ULID regex.  A missing — or, JS truthiness being what it is, empty —
parameter proceeds without a cursor. -/
def decodeCursorParam (cursor : Option Str) : CursorDecode :=
  match cursor with
  | none => .ok none
  | some s =>
    if s = [] then .ok none
    else
      let ts := jsNumber (cursorTsPart s)
      let cid := cursorIdPart s
      if jsIsNaN ts || jsLeZero ts || !ulidCheck cid then .invalid
      else .ok (some (ts, cid))

/-- C3 counterexample: the empty cursor string is malformed by the claim's
own categories (its numeric prefix converts to the zero timestamp `0`, and
its suffix fails the 26-character alphabet), yet the route does not fail
with `InvalidCursor`: it proceeds exactly as an unpaginated default query,
because `if (cursor)` is false for the empty string. -/
theorem invalid_cursor_counterexample :
    jsNumber (cursorTsPart []) = .num 0 ∧
    jsLeZero (jsNumber (cursorTsPart [])) = true ∧
    ulidCheck (cursorIdPart []) = false ∧
    decodeCursorParam (some []) = .ok none := by decide

/-- C3 (amended): for every **nonempty** malformed cursor string — numeric
prefix converting to NaN, zero-or-negative timestamp, or suffix failing the
26-character Crockford alphabet — decoding fails with `InvalidCursor` and
the request does not proceed as an unpaginated or default-cursor query;
the timestamp is everything before the first underscore and the id is
everything after it.  (The empty cursor string instead behaves as an
absent parameter.) -/
theorem invalid_cursor_rejected :
    (∀ s : Str, s ≠ [] →
      (jsIsNaN (jsNumber (cursorTsPart s)) = true ∨
       jsLeZero (jsNumber (cursorTsPart s)) = true ∨
       ulidCheck (cursorIdPart s) = false) →
      decodeCursorParam (some s) = .invalid) ∧
    (∀ a b : Str, '_' ∉ a →
      cursorTsPart (a ++ '_' :: b) = a ∧ cursorIdPart (a ++ '_' :: b) = b) := by
  constructor
  · intro s hne h
    have hb : (jsIsNaN (jsNumber (cursorTsPart s)) || jsLeZero (jsNumber (cursorTsPart s)) ||
        !ulidCheck (cursorIdPart s)) = true := by
      rcases h with h | h | h <;> simp [h]
    show (if s = [] then CursorDecode.ok none
      else
        if (jsIsNaN (jsNumber (cursorTsPart s)) || jsLeZero (jsNumber (cursorTsPart s)) ||
            !ulidCheck (cursorIdPart s)) = true then CursorDecode.invalid
        else CursorDecode.ok (some (jsNumber (cursorTsPart s), cursorIdPart s))) =
      CursorDecode.invalid
    rw [if_neg hne, if_pos hb]
  · intro a b ha
    constructor
    · unfold cursorTsPart
      rw [splitOnChar_append b ha]
    · unfold cursorIdPart
      rw [splitOnChar_append b ha]
      exact joinParts_split b

/-- Witness for C3 (amended): the cursor `"0"` (zero timestamp) is
rejected, and `"a_b"` splits into timestamp part `"a"` and id part `"b"`. -/
theorem invalid_cursor_rejected_witness :
    decodeCursorParam (some ['0']) = .invalid ∧
    cursorTsPart ['a', '_', 'b'] = ['a'] ∧ cursorIdPart ['a', '_', 'b'] = ['b'] :=
  ⟨invalid_cursor_rejected.1 ['0'] (by decide) (Or.inr (Or.inl (by decide))),
   (invalid_cursor_rejected.2 ['a'] ['b'] (by decide)).1,
   (invalid_cursor_rejected.2 ['a'] ['b'] (by decide)).2⟩

/-- The limit clamp of the listing routes:
`Number.isFinite(limitValue) ? Math.max(1, Math.min(100, limitValue)) : 50`
where `limitValue = Number(limitParam)` (and `Number(undefined)` is NaN). -/
def limitNum (limitParam : Option Str) : Rat :=
  let limitValue : JSNumber :=
    match limitParam with
    | none => .nan
    | some s => jsNumber s
  match limitValue with
  | .num q => max 1 (min 100 q)
  | _ => 50

/-- C9: `limit=0` clamps to 1, `limit=9999` clamps to 100, any finite value
inside `[1,100]` is used as given, and a non-numeric (NaN) or absent limit
parameter falls back to 50. -/
theorem limit_clamp :
    limitNum (some ['0']) = 1 ∧
    limitNum (some "9999".toList) = 100 ∧
    (∀ (s : Str) (q : Rat), jsNumber s = .num q → 1 ≤ q → q ≤ 100 →
      limitNum (some s) = q) ∧
    (∀ s : Str, jsNumber s = .nan → limitNum (some s) = 50) ∧
    limitNum none = 50 := by
  refine ⟨by decide, by decide, ?_, ?_, rfl⟩
  · intro s q h h1 h100
    unfold limitNum
    simp only [h]
    rw [min_eq_right h100, max_eq_right h1]
  · intro s h
    unfold limitNum
    simp only [h]

/-- Witness for C9: `limit=50` is used as given. -/
theorem limit_clamp_witness : limitNum (some "50".toList) = 50 :=
  limit_clamp.2.2.1 "50".toList 50 (by decide) (by decide) (by decide)

/-! ### Serializing timestamps into cursors

`nextCursor` is the template string `` `${timestamp}_${id}` ``: the
timestamp is rendered by the JS number-to-string conversion, which for the
integral epoch-millisecond values involved is plain decimal notation (a
leading `-` for negatives). -/

/-- The decimal digit character for `d < 10`. -/
def digitChar (d : Nat) : Char := Char.ofNat (48 + d)

/-- Decimal digits of a natural number; the fuel argument makes the
recursion structural and is sufficient from `fuel > n`. -/
def natDigitsAux : Nat → Nat → Str
  | 0, _ => []
  | fuel + 1, n =>
    if n < 10 then [digitChar n]
    else natDigitsAux fuel (n / 10) ++ [digitChar (n % 10)]

/-- Decimal digits of a natural number. -/
def natDigits (n : Nat) : Str := natDigitsAux (n + 1) n

/-- JS `String(t)` for an integral number `t`. -/
def intToStr (t : Int) : Str :=
  if t < 0 then '-' :: natDigits t.natAbs else natDigits t.toNat

theorem digitChar_isDigit {d : Nat} (hd : d < 10) : (digitChar d).isDigit = true := by
  interval_cases d <;> decide

theorem digitChar_toNat {d : Nat} (hd : d < 10) : (digitChar d).toNat = 48 + d := by
  interval_cases d <;> decide

theorem digitsToNat_append_digit (a : Str) (c : Char) :
    digitsToNat (a ++ [c]) = 10 * digitsToNat a + (c.toNat - 48) := by
  unfold digitsToNat
  rw [List.foldl_append]
  rfl

theorem natDigitsAux_spec :
    ∀ (fuel n : Nat), n < fuel →
      natDigitsAux fuel n ≠ [] ∧
      (∀ c ∈ natDigitsAux fuel n, c.isDigit = true) ∧
      digitsToNat (natDigitsAux fuel n) = n := by
  intro fuel
  induction fuel with
  | zero =>
    intro n hn
    omega
  | succ fuel ih =>
    intro n hn
    by_cases h10 : n < 10
    · refine ⟨?_, ?_, ?_⟩
      · rw [natDigitsAux, if_pos h10]
        simp
      · intro c hc
        rw [natDigitsAux, if_pos h10] at hc
        rw [List.mem_singleton.mp hc]
        exact digitChar_isDigit h10
      · rw [natDigitsAux, if_pos h10]
        show digitsToNat [digitChar n] = n
        have h1 : digitsToNat [digitChar n] = 10 * digitsToNat [] + ((digitChar n).toNat - 48) :=
          digitsToNat_append_digit [] (digitChar n)
        rw [h1, digitChar_toNat h10]
        show 10 * 0 + (48 + n - 48) = n
        omega
    · have hdiv : n / 10 < fuel := by
        have := Nat.div_lt_self (by omega : 0 < n) (by omega : 1 < 10)
        omega
      obtain ⟨ihne, ihdig, ihval⟩ := ih (n / 10) hdiv
      rw [natDigitsAux, if_neg h10]
      have hmod : n % 10 < 10 := Nat.mod_lt n (by omega)
      refine ⟨?_, ?_, ?_⟩
      · intro h
        have := congrArg List.length h
        simp at this
      · intro c hc
        rcases List.mem_append.mp hc with hc | hc
        · exact ihdig c hc
        · rw [List.mem_singleton.mp hc]
          exact digitChar_isDigit hmod
      · rw [digitsToNat_append_digit, ihval, digitChar_toNat hmod]
        omega

theorem natDigits_spec (n : Nat) :
    natDigits n ≠ [] ∧
    (∀ c ∈ natDigits n, c.isDigit = true) ∧
    digitsToNat (natDigits n) = n :=
  natDigitsAux_spec (n + 1) n (by omega)

theorem isDigit_not_ws {c : Char} (h : c.isDigit = true) : jsWhitespaceChar c = false := by
  unfold jsWhitespaceChar
  by_contra hws
  rw [Bool.not_eq_false] at hws
  simp only [Bool.or_eq_true, decide_eq_true_eq] at hws
  rcases hws with ((((((rfl | rfl) | rfl) | rfl) | rfl) | rfl) | rfl) | rfl <;>
    exact absurd h (by decide)

theorem dropWhile_eq_self_of {p : Char → Bool} {s : Str} (h : ∀ c ∈ s, p c = false) :
    s.dropWhile p = s := by
  cases s with
  | nil => rfl
  | cons x xs =>
    rw [List.dropWhile_cons, h x (List.mem_cons_self x xs)]
    simp

theorem jsTrim_eq_self {s : Str} (h : ∀ c ∈ s, jsWhitespaceChar c = false) : jsTrim s = s := by
  unfold jsTrim
  rw [dropWhile_eq_self_of h]
  rw [dropWhile_eq_self_of (fun c hc => h c (List.mem_reverse.mp hc))]
  exact List.reverse_reverse s

theorem splitOnChar_no_sep {sep : Char} {s : Str} (h : ∀ c ∈ s, c ≠ sep) :
    splitOnChar sep s = (s, []) := by
  induction s with
  | nil => rfl
  | cons c rest ih =>
    rw [splitOnChar_cons, if_neg (h c (List.mem_cons_self c rest)),
      ih (fun x hx => h x (List.mem_cons_of_mem c hx))]

theorem splitExpMarker_cons (c : Char) (rest : Str) :
    splitExpMarker (c :: rest) =
      if c = 'e' ∨ c = 'E' then ([], some rest)
      else (c :: (splitExpMarker rest).1, (splitExpMarker rest).2) := rfl

theorem splitExpMarker_no_marker {s : Str} (h : ∀ c ∈ s, ¬(c = 'e' ∨ c = 'E')) :
    splitExpMarker s = (s, none) := by
  induction s with
  | nil => rfl
  | cons c rest ih =>
    rw [splitExpMarker_cons, if_neg (h c (List.mem_cons_self c rest)),
      ih (fun x hx => h x (List.mem_cons_of_mem c hx))]

theorem parseMantissa_digits {t : Str} (hne : t ≠ []) (hdig : ∀ c ∈ t, c.isDigit = true) :
    parseMantissa t = some ((digitsToNat t : Nat) : Rat) := by
  have hsplit : splitOnChar '.' t = (t, []) := splitOnChar_no_sep (fun c hc hdot => by
    rw [hdot] at hc
    exact absurd (hdig _ hc) (by decide))
  unfold parseMantissa
  rw [hsplit]
  show (parseNatDigits t).map (fun v => (v : Rat)) = some ((digitsToNat t : Nat) : Rat)
  unfold parseNatDigits
  rw [if_pos ⟨hne, List.all_eq_true.mpr hdig⟩]
  rfl

theorem parseDecimalLit_digits {t : Str} (hne : t ≠ []) (hdig : ∀ c ∈ t, c.isDigit = true) :
    parseDecimalLit t = some ((digitsToNat t : Nat) : Rat) := by
  have hexp : splitExpMarker t = (t, none) := splitExpMarker_no_marker (fun c hc he => by
    rcases he with rfl | rfl <;> exact absurd (hdig _ hc) (by decide))
  unfold parseDecimalLit
  rw [hexp]
  exact parseMantissa_digits hne hdig

theorem parseSignedDecimal_digits {t : Str} (hne : t ≠ []) (hdig : ∀ c ∈ t, c.isDigit = true) :
    parseSignedDecimal t = .num ((digitsToNat t : Nat) : Rat) := by
  obtain ⟨c, rest, rfl⟩ : ∃ c rest, t = c :: rest := by
    cases t with
    | nil => exact absurd rfl hne
    | cons c rest => exact ⟨c, rest, rfl⟩
  have hc : c.isDigit = true := hdig c (List.mem_cons_self _ _)
  have hinf : c :: rest ≠ infinityChars := by
    intro heq
    have hI : c = 'I' := by
      have h2 := congrArg (fun l => l.headD ' ') heq
      simpa [infinityChars] using h2
    rw [hI] at hc
    exact absurd hc (by decide)
  unfold parseSignedDecimal
  split
  · rename_i r heq
    have : c = '+' := (List.cons_eq_cons.mp heq).1
    rw [this] at hc
    exact absurd hc (by decide)
  · rename_i r heq
    have : c = '-' := (List.cons_eq_cons.mp heq).1
    rw [this] at hc
    exact absurd hc (by decide)
  · show (if c :: rest = infinityChars then JSNumber.posInf
      else match parseDecimalLit (c :: rest) with
        | some q => JSNumber.num q
        | none => JSNumber.nan) = _
    rw [if_neg hinf, parseDecimalLit_digits hne hdig]

theorem jsNumber_digits {t : Str} (hne : t ≠ []) (hdig : ∀ c ∈ t, c.isDigit = true) :
    jsNumber t = .num ((digitsToNat t : Nat) : Rat) := by
  have htrim : jsTrim t = t := jsTrim_eq_self (fun c hc => isDigit_not_ws (hdig c hc))
  unfold jsNumber
  rw [htrim]
  unfold jsNumberOfTrimmed
  split
  · exact absurd rfl hne
  · rename_i c2 rest2
    have hc2 : c2.isDigit = true := hdig c2 (List.mem_cons_of_mem _ (List.mem_cons_self _ _))
    rw [if_neg ?hx, if_neg ?ho, if_neg ?hb]
    case hx =>
      rintro (rfl | rfl) <;> exact absurd hc2 (by decide)
    case ho =>
      rintro (rfl | rfl) <;> exact absurd hc2 (by decide)
    case hb =>
      rintro (rfl | rfl) <;> exact absurd hc2 (by decide)
    exact parseSignedDecimal_digits hne hdig
  · exact parseSignedDecimal_digits hne hdig

theorem jsNumber_intToStr {t : Int} (ht : 1 ≤ t) : jsNumber (intToStr t) = .num (t : Rat) := by
  unfold intToStr
  rw [if_neg (by omega : ¬ t < 0)]
  obtain ⟨hne, hdig, hval⟩ := natDigits_spec t.toNat
  rw [jsNumber_digits hne hdig, hval]
  congr 1
  rw [← Int.cast_natCast (R := Rat), Int.toNat_of_nonneg (by omega : (0 : Int) ≤ t)]

theorem natDigits_no_underscore (n : Nat) : '_' ∉ natDigits n := by
  intro h
  exact absurd ((natDigits_spec n).2.1 _ h) (by decide)

/-- The serialized cursor of an entry: `` `${timestamp}_${id}` ``. -/
def encodeCursor (c : Int × Str) : Str := intToStr c.1 ++ '_' :: c.2

/-- Re-decoding a route-emitted cursor succeeds and returns the original
timestamp and id, provided the timestamp is positive and the id passes the
ULID regex — which is exactly what the per-request validation re-checks. -/
theorem decode_emitted {t : Int} (ht : 1 ≤ t) {cid : Str} (hid : ulidCheck cid = true) :
    decodeCursorParam (some (encodeCursor (t, cid))) =
      .ok (some (.num (t : Rat), cid)) := by
  show decodeCursorParam (some (intToStr t ++ '_' :: cid)) = _
  have hnu : '_' ∉ intToStr t := by
    unfold intToStr
    rw [if_neg (by omega : ¬ t < 0)]
    exact natDigits_no_underscore _
  have hsne : intToStr t ++ '_' :: cid ≠ [] := by
    intro h
    have := congrArg List.length h
    simp at this
  have hts : cursorTsPart (intToStr t ++ '_' :: cid) = intToStr t := by
    unfold cursorTsPart
    rw [splitOnChar_append cid hnu]
  have hid2 : cursorIdPart (intToStr t ++ '_' :: cid) = cid := by
    unfold cursorIdPart
    rw [splitOnChar_append cid hnu]
    exact joinParts_split cid
  have hnum : jsNumber (cursorTsPart (intToStr t ++ '_' :: cid)) = .num (t : Rat) := by
    rw [hts]
    exact jsNumber_intToStr ht
  have hpos : jsLeZero (JSNumber.num (t : Rat)) = false := by
    show decide ((t : Rat) ≤ 0) = false
    rw [decide_eq_false_iff_not]
    intro hle
    have h2 : t ≤ 0 := by exact_mod_cast hle
    omega
  show (if intToStr t ++ '_' :: cid = [] then CursorDecode.ok none
    else if (jsIsNaN (jsNumber (cursorTsPart (intToStr t ++ '_' :: cid))) ||
        jsLeZero (jsNumber (cursorTsPart (intToStr t ++ '_' :: cid))) ||
        !ulidCheck (cursorIdPart (intToStr t ++ '_' :: cid))) = true then CursorDecode.invalid
    else CursorDecode.ok (some (jsNumber (cursorTsPart (intToStr t ++ '_' :: cid)),
      cursorIdPart (intToStr t ++ '_' :: cid)))) =
    CursorDecode.ok (some (.num (t : Rat), cid))
  rw [if_neg hsne, hnum, hid2]
  rw [if_neg (by rw [hpos, hid]; simp [jsIsNaN])]

/-! ### The pagination loop, with per-request cursor validation

`nextCursor` travels between requests as a string; every request decodes
and re-validates it (`isNaN(ts) || ts <= 0 || !ulidRegex.test(id)` → 400),
so the client loop of C2 must round-trip each cursor through the codec. -/

/-- The SQL cursor condition for a decoded cursor value: D1/SQLite compares
the integer `timestamp` column with the bound numeric parameter.  `nan`
and `negInf` cannot reach the query (validation rejects NaN and values
`≤ 0`); `posInf` compares above every integer. -/
def decodedCursorCond (dec : Option (JSNumber × Str)) (l : Log) : Bool :=
  match dec with
  | none => true
  | some (tsNum, cid) =>
    match tsNum with
    | .num q => decide ((l.timestamp : Rat) < q) ||
        (decide ((l.timestamp : Rat) = q) && strLtB l.id cid)
    | .posInf => true
    | .negInf => false
    | .nan => false

theorem decodedCursorCond_int (t : Int) (cid : Str) (l : Log) :
    decodedCursorCond (some (.num (t : Rat), cid)) l = cursorCond (some (t, cid)) l := by
  show (decide ((l.timestamp : Rat) < (t : Rat)) ||
      (decide ((l.timestamp : Rat) = (t : Rat)) && strLtB l.id cid)) =
    (decide (l.timestamp < t) || (decide (l.timestamp = t) && strLtB l.id cid))
  congr 1
  · exact decide_eq_decide.mpr Int.cast_lt
  · congr 1
    exact decide_eq_decide.mpr Int.cast_inj

/-- Response shape of a listing request: `{items, nextCursor, hasMore}`
with the serialized cursor. -/
structure PageS where
  items : List Log
  nextCursor : Option Str
  hasMore : Bool
deriving DecidableEq, Repr

/-- The page computation after a successful cursor decode: run the
overfetching query with the decoded cursor condition, derive `hasMore`,
truncate the overfetch row, and serialize `nextCursor` from the last
returned item. -/
def listPageDec (store : List Log) (cond : Log → Bool) (limitNum : Nat)
    (dec : Option (JSNumber × Str)) : PageS :=
  let result := ((sortLogs store).filter
    (fun l => cond l && decodedCursorCond dec l)).take (limitNum + 1)
  let hasMore : Bool := decide (limitNum < result.length)
  let items := if hasMore then result.take limitNum else result
  let nextCursor : Option Str :=
    if hasMore then
      match items.getLast? with
      | some l => some (encodeCursor (l.timestamp, l.id))
      | none => none
    else none
  ⟨items, nextCursor, hasMore⟩

/-- One listing request with a raw `cursor` query parameter, as the routes
execute it: decode and validate the cursor (a 400 `Invalid cursor` response
is `none`), then run the page computation. -/
def listRequest (store : List Log) (cond : Log → Bool) (limitNum : Nat)
    (cursor : Option Str) : Option PageS :=
  match decodeCursorParam cursor with
  | .invalid => none
  | .ok dec => some (listPageDec store cond limitNum dec)

theorem listRequest_ok {store : List Log} {cond : Log → Bool} {n : Nat}
    {cursor : Option Str} {dec : Option (JSNumber × Str)}
    (hdec : decodeCursorParam cursor = .ok dec) :
    listRequest store cond n cursor = some (listPageDec store cond n dec) := by
  unfold listRequest
  rw [hdec]

/-- The client-side pagination loop: request a page with the raw cursor
string, and while `hasMore` holds, pass the returned `nextCursor` back;
concatenate all returned items.  A 400 response stops the loop — the
listing cannot be continued.  `fuel` bounds the number of requests (any
`fuel ≥ store.length` is enough). -/
def paginateAll (store : List Log) (cond : Log → Bool) (limitNum : Nat) :
    Nat → Option Str → List Log
  | 0, _ => []
  | fuel + 1, cursor =>
    match listRequest store cond limitNum cursor with
    | none => []
    | some p =>
      if p.hasMore then
        match p.nextCursor with
        | some c' => p.items ++ paginateAll store cond limitNum fuel (some c')
        | none => p.items
      else p.items

/-- The raw cursor parameter decodes to the given timestamp/id pair (or is
absent). -/
def decodesTo (cursor : Option Str) (d : Option (Int × Str)) : Prop :=
  match d with
  | none => cursor = none
  | some (t, cid) => ∃ s, cursor = some s ∧
      decodeCursorParam (some s) = .ok (some (.num (t : Rat), cid))

theorem listPageDec_eq {store : List Log} {cond : Log → Bool} {n : Nat}
    {dec : Option (JSNumber × Str)} {d : Option (Int × Str)}
    (hfun : ∀ l, decodedCursorCond dec l = cursorCond d l) :
    listPageDec store cond n dec =
      let result := pageQuery store cond n d
      let hasMore : Bool := decide (n < result.length)
      let items := if hasMore then result.take n else result
      let nextCursor : Option Str :=
        if hasMore then
          match items.getLast? with
          | some l => some (encodeCursor (l.timestamp, l.id))
          | none => none
        else none
      ⟨items, nextCursor, hasMore⟩ := by
  have hfun2 : (fun l => cond l && decodedCursorCond dec l) =
      (fun l => cond l && cursorCond d l) := by
    funext l
    rw [hfun l]
  unfold listPageDec pageQuery
  rw [hfun2]

theorem listPageDec_final {store : List Log} {cond : Log → Bool} {n : Nat}
    {dec : Option (JSNumber × Str)} {d : Option (Int × Str)}
    (hfun : ∀ l, decodedCursorCond dec l = cursorCond d l)
    (h : (pageQuery store cond n d).length ≤ n) :
    listPageDec store cond n dec = ⟨pageQuery store cond n d, none, false⟩ := by
  rw [listPageDec_eq hfun]
  have hd : decide (n < (pageQuery store cond n d).length) = false := by
    rw [decide_eq_false_iff_not]
    omega
  simp only [hd]
  simp

theorem listPageDec_more {store : List Log} {cond : Log → Bool} {n : Nat}
    {dec : Option (JSNumber × Str)} {d : Option (Int × Str)}
    (hfun : ∀ l, decodedCursorCond dec l = cursorCond d l)
    (h : n < (pageQuery store cond n d).length) :
    listPageDec store cond n dec =
      ⟨(pageQuery store cond n d).take n,
        (match ((pageQuery store cond n d).take n).getLast? with
         | some l => some (encodeCursor (l.timestamp, l.id))
         | none => none),
        true⟩ := by
  rw [listPageDec_eq hfun]
  have hd : decide (n < (pageQuery store cond n d).length) = true := by
    rw [decide_eq_true_eq]
    omega
  simp only [hd]
  simp

theorem paginateAll_go (store : List Log) (cond : Log → Bool) (n : Nat) (hn1 : 1 ≤ n)
    (hsd : (baseList store cond).Pairwise sDesc)
    (hwf : ∀ l ∈ store, 1 ≤ l.timestamp ∧ ulidCheck l.id = true) :
    ∀ (fuel : Nat) (cursor : Option Str) (d : Option (Int × Str)),
      decodesTo cursor d →
      ((baseList store cond).filter (cursorCond d)).length ≤ fuel →
      paginateAll store cond n fuel cursor = (baseList store cond).filter (cursorCond d) := by
  intro fuel
  induction fuel with
  | zero =>
    intro cursor d hdec0 hc
    have h0 : (baseList store cond).filter (cursorCond d) = [] :=
      List.eq_nil_of_length_eq_zero (Nat.le_zero.mp hc)
    rw [h0]
    rfl
  | succ fuel ih =>
    intro cursor d hdec0 hc
    obtain ⟨dec, hdec, hfun⟩ : ∃ dec, decodeCursorParam cursor = .ok dec ∧
        ∀ l, decodedCursorCond dec l = cursorCond d l := by
      cases d with
      | none =>
        refine ⟨none, ?_, fun l => rfl⟩
        rw [show cursor = none from hdec0]
        rfl
      | some td =>
        obtain ⟨t, cid⟩ := td
        obtain ⟨s, hs, hdec⟩ := hdec0
        refine ⟨some (.num (t : Rat), cid), ?_, fun l => decodedCursorCond_int t cid l⟩
        rw [hs]
        exact hdec
    have hpq : pageQuery store cond n d =
        ((baseList store cond).filter (cursorCond d)).take (n + 1) := by
      unfold pageQuery baseList
      rw [List.filter_filter]
      congr 1
      apply List.filter_congr
      intro x _
      exact Bool.and_comm (cond x) (cursorCond d x)
    by_cases hlen : ((baseList store cond).filter (cursorCond d)).length ≤ n
    · -- final page: hasMore is false, everything fits
      have hresult : pageQuery store cond n d = (baseList store cond).filter (cursorCond d) := by
        rw [hpq]
        exact List.take_of_length_le (by omega)
      have hpage : listRequest store cond n cursor =
          some ⟨(baseList store cond).filter (cursorCond d), none, false⟩ := by
        rw [listRequest_ok hdec, listPageDec_final hfun (by rw [hresult]; exact hlen), hresult]
      simp only [paginateAll, hpage]
      simp
    · -- intermediate page: hasMore holds, the emitted cursor re-validates
      push_neg at hlen
      have hlen2 : (pageQuery store cond n d).length = n + 1 := by
        rw [hpq, List.length_take]
        omega
      obtain ⟨f, x, htake, hdecomp, hlast⟩ :=
        take_getLast_decomp (L := (baseList store cond).filter (cursorCond d)) hn1 (by omega)
      have hitems : (pageQuery store cond n d).take n =
          ((baseList store cond).filter (cursorCond d)).take n := by
        rw [hpq, List.take_take]
        congr 1
        omega
      have hpage : listRequest store cond n cursor =
          some ⟨(pageQuery store cond n d).take n,
            (match ((pageQuery store cond n d).take n).getLast? with
             | some l => some (encodeCursor (l.timestamp, l.id))
             | none => none),
            true⟩ := by
        rw [listRequest_ok hdec, listPageDec_more hfun (by omega)]
      rw [hitems, hlast] at hpage
      have hxmem : x ∈ (baseList store cond).filter (cursorCond d) := by
        rw [hdecomp]
        exact List.mem_append_right f (List.mem_cons_self x _)
      have hxstore : x ∈ store := by
        have h1 : x ∈ baseList store cond := (List.mem_filter.mp hxmem).1
        have h2 : x ∈ sortLogs store :=
          (List.mem_filter.mp (show x ∈ (sortLogs store).filter cond from h1)).1
        exact (sortLogs_perm store).mem_iff.mp h2
      obtain ⟨hxts, hxid⟩ := hwf x hxstore
      have hdropx : (baseList store cond).filter (cursorCond (some (key x))) =
          ((baseList store cond).filter (cursorCond d)).drop n := by
        rw [filter_cursor_key hxmem]
        have hsd' : (((baseList store cond).filter (cursorCond d))).Pairwise sDesc :=
          hsd.sublist (List.filter_sublist _)
        conv_lhs => rw [hdecomp]
        rw [filter_keyLt_of_append (hdecomp ▸ hsd')]
      have hdecnext : decodesTo (some (encodeCursor (x.timestamp, x.id)))
          (some (x.timestamp, x.id)) :=
        ⟨encodeCursor (x.timestamp, x.id), rfl, decode_emitted hxts hxid⟩
      have hrec := ih (some (encodeCursor (x.timestamp, x.id))) (some (x.timestamp, x.id))
        hdecnext (by
          have hkx : (x.timestamp, x.id) = key x := rfl
          rw [hkx, hdropx, List.length_drop]
          omega)
      simp only [paginateAll, hpage]
      show (((baseList store cond).filter (cursorCond d)).take n ++
          paginateAll store cond n fuel (some (encodeCursor (x.timestamp, x.id)))) =
        (baseList store cond).filter (cursorCond d)
      rw [hrec]
      have hkx : (x.timestamp, x.id) = key x := rfl
      rw [hkx, hdropx, List.take_append_drop]

/-- A valid server-generated 26-character Crockford id. -/
def ulidA : Str := "01ARZ3NDEKTSV4RRFFQ69G5FAV".toList

/-- A second valid id, below `ulidA` in the tie-break order. -/
def ulidB : Str := "01ARZ3NDEKTSV4RRFFQ69G5FAB".toList

/-- A third valid id. -/
def ulidC : Str := "01ARZ3NDEKTSV4RRFFQ69G5FA2".toList

/-- A store whose entries have valid ULID ids but timestamp `0` — reachable,
since `POST /api/logs` accepts any client-supplied `body.timestamp`
unvalidated. -/
def badTsStore : List Log :=
  [⟨ulidA, .thought, ['a'], 0, none, 0, 0⟩,
   ⟨ulidB, .thought, ['b'], 0, none, 0, 0⟩]

/-- C2 counterexample: on a reachable store of two entries with timestamp
`0` (ids valid ULIDs, no duplicate ids) and `limit = 1`, the first page
emits `nextCursor = "0_<ulid>"`, which the next request's own validation
rejects (`ts <= 0` → 400 Invalid cursor): the loop cannot continue, and
the concatenation misses the second stored entry even though it matches
the filter — completeness fails as the claim is stated. -/
theorem paginated_listing_counterexample :
    (∀ l ∈ badTsStore, ulidCheck l.id = true) ∧
    (badTsStore.map Log.id).Nodup ∧
    paginateAll badTsStore (fun _ => true) 1 2 none =
      [⟨ulidA, .thought, ['a'], 0, none, 0, 0⟩] ∧
    (⟨ulidB, .thought, ['b'], 0, none, 0, 0⟩ : Log) ∈ badTsStore ∧
    (⟨ulidB, .thought, ['b'], 0, none, 0, 0⟩ : Log) ∉
      paginateAll badTsStore (fun _ => true) 1 2 none := by
  decide

/-- C2 (amended): for a store of entries with positive timestamps and valid
26-character Crockford ids — both guaranteed for server-generated entries,
though a client-supplied `timestamp ≤ 0` can violate the first — every
emitted `nextCursor` passes the next request's re-validation, and
concatenating the pages obtained by repeatedly passing the returned
`nextCursor` until `hasMore` is false yields a sequence with no duplicate
IDs, in strictly descending `(timestamp, id)` order (id as tie-break),
containing every stored entry that matches the filter condition. -/
theorem paginated_listing_complete (store : List Log) (cond : Log → Bool)
    (n fuel : Nat) (hn1 : 1 ≤ n)
    (hnd : (store.map Log.id).Nodup)
    (hwf : ∀ l ∈ store, 1 ≤ l.timestamp ∧ ulidCheck l.id = true)
    (hfuel : store.length ≤ fuel) :
    ((paginateAll store cond n fuel none).map Log.id).Nodup ∧
    (paginateAll store cond n fuel none).Pairwise
      (fun a b => b.timestamp < a.timestamp ∨
        (b.timestamp = a.timestamp ∧ strLtB b.id a.id = true)) ∧
    (∀ l ∈ store, cond l = true → l ∈ paginateAll store cond n fuel none) := by
  have hsd : (baseList store cond).Pairwise sDesc := baseList_pairwise_sDesc store cond hnd
  have hfn : (baseList store cond).filter (cursorCond none) = baseList store cond :=
    List.filter_eq_self.mpr (fun a _ => rfl)
  have hlen : ((baseList store cond).filter (cursorCond none)).length ≤ fuel := by
    rw [hfn]
    calc (baseList store cond).length ≤ (sortLogs store).length :=
          List.length_filter_le _ _
      _ = store.length := (sortLogs_perm store).length_eq
      _ ≤ fuel := hfuel
  have hall : paginateAll store cond n fuel none = baseList store cond := by
    rw [paginateAll_go store cond n hn1 hsd hwf fuel none none rfl hlen, hfn]
  rw [hall]
  refine ⟨?_, ?_, ?_⟩
  · have hsub : List.Sublist ((baseList store cond).map Log.id) ((sortLogs store).map Log.id) :=
      (List.filter_sublist _).map Log.id
    have hperm : List.Perm (List.map Log.id (sortLogs store)) (List.map Log.id store) :=
      (sortLogs_perm store).map Log.id
    exact ((hperm.nodup_iff).mpr hnd).sublist hsub
  · refine hsd.imp ?_
    intro a b hab
    exact (keyLtB_true_iff (key b) (key a)).mp hab
  · intro l hl hcond
    unfold baseList
    exact List.mem_filter.mpr ⟨(sortLogs_perm store).mem_iff.mpr hl, hcond⟩

/-- A small store with a timestamp tie between `ulidA` and `ulidB`, with
positive timestamps and valid ids. -/
def demoPageStore : List Log :=
  [⟨ulidA, .activity, ['x'], 5, none, 0, 0⟩,
   ⟨ulidB, .meal, ['y'], 5, none, 0, 0⟩,
   ⟨ulidC, .thought, ['z'], 3, none, 0, 0⟩]

/-- Witness for C2 (amended): three valid entries paged with `limit = 1`,
each round re-validating the emitted cursor. -/
theorem paginated_listing_complete_witness :
    ((paginateAll demoPageStore (fun _ => true) 1 3 none).map Log.id).Nodup ∧
    (paginateAll demoPageStore (fun _ => true) 1 3 none).Pairwise
      (fun a b => b.timestamp < a.timestamp ∨
        (b.timestamp = a.timestamp ∧ strLtB b.id a.id = true)) ∧
    (∀ l ∈ demoPageStore, (fun _ => true) l = true →
      l ∈ paginateAll demoPageStore (fun _ => true) 1 3 none) :=
  paginated_listing_complete demoPageStore (fun _ => true) 1 3
    (by decide) (by decide) (by decide) (by decide)

/-! ### Tag repository (POST /api/tags) -/

inductive CreateTagResult
  | invalidName
  | conflict
  | created (t : Tag)
deriving DecidableEq, Repr

/-- `POST /api/tags`: reject a missing or whitespace-only name
(`!body.name || body.name.trim() === ""`), look up an existing tag with the
exact trimmed name (`eq(tags.name, name)`, SQLite BINARY — case-sensitive)
before inserting, fail with 409 on a duplicate, otherwise insert the new
tag.  Returns the response and the resulting tag table. -/
def createTag (st : List Tag) (name : Option Str) (color : Option Str)
    (id : Str) (now : Int) : CreateTagResult × List Tag :=
  match name with
  | none => (.invalidName, st)
  | some nm =>
    if nm = [] then (.invalidName, st)
    else if jsTrim nm = [] then (.invalidName, st)
    else if st.any (fun t => decide (t.name = jsTrim nm)) then (.conflict, st)
    else (.created ⟨id, jsTrim nm, color, now⟩, st ++ [⟨id, jsTrim nm, color, now⟩])

/-- Tag creation only ever stores nonempty (trimmed) names, so in every
reachable tag table all names are nonempty. -/
theorem createTag_name_wf (st : List Tag) (name : Option Str) (color : Option Str)
    (id : Str) (now : Int) (hwf : ∀ t ∈ st, t.name ≠ []) :
    ∀ t ∈ (createTag st name color id now).2, t.name ≠ [] := by
  cases name with
  | none => exact hwf
  | some nm =>
    show ∀ t ∈ (if nm = [] then (CreateTagResult.invalidName, st)
      else if jsTrim nm = [] then (CreateTagResult.invalidName, st)
      else if st.any (fun t => decide (t.name = jsTrim nm)) then (CreateTagResult.conflict, st)
      else (CreateTagResult.created ⟨id, jsTrim nm, color, now⟩,
        st ++ [⟨id, jsTrim nm, color, now⟩])).2, t.name ≠ []
    by_cases h1 : nm = []
    · rw [if_pos h1]
      exact hwf
    · rw [if_neg h1]
      by_cases h2 : jsTrim nm = []
      · rw [if_pos h2]
        exact hwf
      · rw [if_neg h2]
        by_cases h3 : st.any (fun t => decide (t.name = jsTrim nm)) = true
        · rw [if_pos h3]
          exact hwf
        · rw [if_neg h3]
          intro t ht
          rcases List.mem_append.mp ht with ht | ht
          · exact hwf t ht
          · have : t = ⟨id, jsTrim nm, color, now⟩ := List.mem_singleton.mp ht
            rw [this]
            exact h2

/-- C6: creating a tag whose trimmed name equals the name of an existing tag
(case-sensitive exact match) fails with `Conflict` and leaves the stored tag
table — in particular the tag count — unchanged; no partial mutation
occurs.  (The hypothesis that stored names are nonempty holds in every
reachable state, by `createTag_name_wf`.) -/
theorem tag_create_conflict (st : List Tag) (nm : Str) (color : Option Str)
    (id : Str) (now : Int)
    (hwf : ∀ t ∈ st, t.name ≠ [])
    (hdup : jsTrim nm ∈ st.map Tag.name) :
    createTag st (some nm) color id now = (.conflict, st) := by
  obtain ⟨t, htmem, htname⟩ := List.mem_map.mp hdup
  have htrim : jsTrim nm ≠ [] := by
    rw [← htname]
    exact hwf t htmem
  have hnm : nm ≠ [] := fun h => htrim (by rw [h]; rfl)
  have hany : st.any (fun t => decide (t.name = jsTrim nm)) = true :=
    List.any_eq_true.mpr ⟨t, htmem, by simp [htname]⟩
  show (if nm = [] then (CreateTagResult.invalidName, st)
    else if jsTrim nm = [] then (CreateTagResult.invalidName, st)
    else if st.any (fun t => decide (t.name = jsTrim nm)) then (CreateTagResult.conflict, st)
    else (CreateTagResult.created ⟨id, jsTrim nm, color, now⟩,
      st ++ [⟨id, jsTrim nm, color, now⟩])) = (CreateTagResult.conflict, st)
  rw [if_neg hnm, if_neg htrim, if_pos hany]

/-- A one-tag table. -/
def demoTagTable : List Tag := [⟨['T'], "work".toList, none, 0⟩]

/-- Witness for C6: creating `" work "` over an existing `"work"` tag
conflicts and leaves the table unchanged. -/
theorem tag_create_conflict_witness :
    createTag demoTagTable (some (' ' :: "work ".toList)) none ['U'] 99 =
      (.conflict, demoTagTable) :=
  tag_create_conflict demoTagTable (' ' :: "work ".toList) none ['U'] 99
    (by decide) (by decide)

/-! ### Log creation and update (POST /api/logs, PUT /api/logs/:id) -/

/-- `isValidLogType`: membership of a string in the closed `logTypes` set. -/
def logTypeOfStr (s : Str) : Option LogType :=
  if s = "activity".toList then some .activity
  else if s = "wake_up".toList then some .wake_up
  else if s = "meal".toList then some .meal
  else if s = "location".toList then some .location
  else if s = "thought".toList then some .thought
  else if s = "reading".toList then some .reading
  else if s = "media".toList then some .media
  else if s = "bookmark".toList then some .bookmark
  else none

/-- The JSON body of `POST /api/logs`. -/
structure CreateLogBody where
  type : Option Str
  content : Option Str
  timestamp : Option Int
  metadata : Option (List (Str × Option Str))
  tagIds : Option (List Str)

inductive CreateLogResult
  | badType
  | badContent
  | created (l : Log) (tagIds : List Str)
deriving DecidableEq, Repr

/-- `POST /api/logs`: validate the type against the closed set, reject a
missing or whitespace-only content
(`!body.content || body.content.trim() === ""`) before any insert, then
store the trimmed content with server-assigned id and timestamps;
`tagIds` failing the ULID regex are silently dropped. -/
def createLog (body : CreateLogBody) (id : Str) (now : Int) : CreateLogResult :=
  match body.type with
  | none => .badType
  | some t =>
    match logTypeOfStr t with
    | none => .badType
    | some ty =>
      match body.content with
      | none => .badContent
      | some content =>
        if content = [] ∨ jsTrim content = [] then .badContent
        else
          .created
            ⟨id, ty, jsTrim content, body.timestamp.getD now, body.metadata, now, now⟩
            ((body.tagIds.getD []).filter ulidCheck)

/-- The JSON body of `PUT /api/logs/:id`.  A doubled `Option` distinguishes
an absent `metadata` field from a supplied `null`. -/
structure UpdateLogBody where
  type : Option Str
  content : Option Str
  timestamp : Option Int
  metadata : Option (Option (List (Str × Option Str)))
  tagIds : Option (List Str)

inductive UpdateLogResult
  | badType
  | updated (l : Log)
deriving DecidableEq, Repr

/-- `PUT /api/logs/:id` applied to an existing log: a supplied type must be
in the closed set; only supplied fields mutate; `updatedAt` always
advances.  The supplied content is trimmed
(`updates.content = body.content.trim()`) but — unlike create — not
checked for emptiness. -/
def updateLog (l : Log) (body : UpdateLogBody) (now : Int) : UpdateLogResult :=
  let tyOk : Option (Option LogType) :=
    match body.type with
    | none => some none
    | some t =>
      match logTypeOfStr t with
      | none => none
      | some ty => some (some ty)
  match tyOk with
  | none => .badType
  | some oty =>
    .updated
      { id := l.id
        type := oty.getD l.type
        content := match body.content with | none => l.content | some c => jsTrim c
        timestamp := body.timestamp.getD l.timestamp
        metadata := match body.metadata with | none => l.metadata | some m => m
        createdAt := l.createdAt
        updatedAt := now }

/-- The spec's data-model invariant: stored content is never empty or
whitespace-only. -/
def contentOK (l : Log) : Prop := jsTrim l.content ≠ []

instance (l : Log) : Decidable (contentOK l) :=
  inferInstanceAs (Decidable (jsTrim l.content ≠ []))

/-- A stored log with valid content. -/
def demoLog : Log := ⟨['A'], .thought, "hello".toList, 1, none, 0, 0⟩

/-- C4 evaluated at the failing input: create rejects whitespace-only
content before any insert, but update of an existing valid log with body
`{"content": "   "}` succeeds and stores the empty content `""`, violating
the invariant that stored content is never empty or whitespace-only. -/
theorem content_invariant_update_bug :
    createLog ⟨some "thought".toList, some "   ".toList, none, none, none⟩ ['B'] 0 =
      .badContent ∧
    updateLog demoLog ⟨none, some "   ".toList, none, none, none⟩ 5 =
      .updated ⟨['A'], .thought, [], 1, none, 0, 5⟩ ∧
    ¬ contentOK (⟨['A'], .thought, [], 1, none, 0, 5⟩ : Log) ∧
    contentOK demoLog := by
  refine ⟨by decide, by decide, by decide, by decide⟩

/-! ### Search engine (GET /api/search)

`escapeLike` escapes LIKE metacharacters; the query then matches
`content LIKE '%' + escaped + '%' ESCAPE '\'`.  SQLite's `LIKE` is
case-insensitive on ASCII letters, which the matcher models with
`lowerChar`. -/

/-- One global single-character replacement pass:
JS `str.replace(/target/g, repl)`. -/
def replaceAllChar (target : Char) (repl : Str) : Str → Str
  | [] => []
  | c :: rest => (if c = target then repl else [c]) ++ replaceAllChar target repl rest

/-- `escapeLike`:
`str.replace(/\\/g, "\\\\").replace(/%/g, "\\%").replace(/_/g, "\\_")`. -/
def escapeLike (s : Str) : Str :=
  replaceAllChar '_' ['\\', '_']
    (replaceAllChar '%' ['\\', '%']
      (replaceAllChar '\\' ['\\', '\\'] s))

/-- Single-character escaping step: metacharacters get a backslash. -/
def escChar (c : Char) : Str :=
  if c = '\\' ∨ c = '%' ∨ c = '_' then ['\\', c] else [c]

/-- The fused single pass of the three replacements. -/
def escapeLikeChars : Str → Str
  | [] => []
  | c :: rest => escChar c ++ escapeLikeChars rest

theorem replaceAllChar_append (target : Char) (repl : Str) (a b : Str) :
    replaceAllChar target repl (a ++ b) =
      replaceAllChar target repl a ++ replaceAllChar target repl b := by
  induction a with
  | nil => rfl
  | cons c a ih =>
    rw [List.cons_append]
    show (if c = target then repl else [c]) ++ replaceAllChar target repl (a ++ b) =
      ((if c = target then repl else [c]) ++ replaceAllChar target repl a) ++
        replaceAllChar target repl b
    rw [ih, List.append_assoc]

/-- The three sequential replacement passes equal the single fused pass:
the later passes only prepend backslashes to `%` and `_`, which the
earlier passes never produce. -/
theorem escapeLike_eq (s : Str) : escapeLike s = escapeLikeChars s := by
  induction s with
  | nil => rfl
  | cons c rest ih =>
    show escapeLike (c :: rest) = escChar c ++ escapeLikeChars rest
    unfold escapeLike at ih ⊢
    have h1 : replaceAllChar '\\' ['\\', '\\'] (c :: rest) =
        (if c = '\\' then ['\\', '\\'] else [c]) ++ replaceAllChar '\\' ['\\', '\\'] rest := rfl
    rw [h1, replaceAllChar_append, replaceAllChar_append, ih]
    congr 1
    by_cases hb : c = '\\'
    · simp [hb, replaceAllChar, escChar]
    · by_cases hp : c = '%'
      · simp [hb, hp, replaceAllChar, escChar]
      · by_cases hu : c = '_'
        · simp [hb, hp, hu, replaceAllChar, escChar]
        · simp [hb, hp, hu, replaceAllChar, escChar]

/-- ASCII lower-casing, as SQLite's default `LIKE` folds `A`-`Z`. -/
def lowerChar (c : Char) : Char :=
  if 'A' ≤ c ∧ c ≤ 'Z' then Char.ofNat (c.toNat + 32) else c

/-- Does `f` hold of some suffix of the list (including itself and `[]`)? -/
def anySuffix (f : Str → Bool) : Str → Bool
  | [] => f []
  | x :: cs => f (x :: cs) || anySuffix f cs

/-- A token of a LIKE pattern: the `%` wildcard, the `_` wildcard, or a
literal character (possibly produced by the `ESCAPE '\'` clause). -/
inductive LikeTok
  | pct
  | usc
  | lit (c : Char)
deriving DecidableEq, Repr

/-- Tokenizing a LIKE pattern under `ESCAPE '\'`; the flag records a
pending escape.  (A trailing lone escape is dropped; `escapeLike` output
never produces one.) -/
def likeTokensF : Bool → Str → List LikeTok
  | _, [] => []
  | true, a :: rest => .lit a :: likeTokensF false rest
  | false, '\\' :: rest => likeTokensF true rest
  | false, '%' :: rest => .pct :: likeTokensF false rest
  | false, '_' :: rest => .usc :: likeTokensF false rest
  | false, a :: rest => .lit a :: likeTokensF false rest

/-- The token reading of a LIKE pattern. -/
def likeTokens (p : Str) : List LikeTok := likeTokensF false p

/-- Matching a tokenized LIKE pattern against content, ASCII-case-insensitively
as SQLite's default `LIKE` does. -/
def tokenMatch : List LikeTok → Str → Bool
  | [], c => c.isEmpty
  | .pct :: ts, c => anySuffix (fun c' => tokenMatch ts c') c
  | .usc :: ts, c =>
    match c with
    | [] => false
    | _ :: cs => tokenMatch ts cs
  | .lit a :: ts, c =>
    match c with
    | [] => false
    | x :: cs => decide (lowerChar a = lowerChar x) && tokenMatch ts cs

/-- SQLite `content LIKE pattern ESCAPE '\'`. -/
def likeMatch (p c : Str) : Bool := tokenMatch (likeTokens p) c

theorem likeTokensF_lit {a : Char} (rest : Str)
    (h1 : a ≠ '\\') (h2 : a ≠ '%') (h3 : a ≠ '_') :
    likeTokensF false (a :: rest) = .lit a :: likeTokensF false rest := by
  rw [likeTokensF]
  simp [h1, h2, h3]
  · exact fun h => h2 h
  · exact fun h => h3 h

theorem anySuffix_iff (f : Str → Bool) (c : Str) :
    anySuffix f c = true ↔ ∃ n, f (c.drop n) = true := by
  induction c with
  | nil =>
    constructor
    · intro h
      exact ⟨0, h⟩
    · rintro ⟨n, h⟩
      simpa using h
  | cons x cs ih =>
    show (f (x :: cs) || anySuffix f cs) = true ↔ _
    rw [Bool.or_eq_true, ih]
    constructor
    · rintro (h | ⟨n, h⟩)
      · exact ⟨0, h⟩
      · exact ⟨n + 1, h⟩
    · rintro ⟨n, h⟩
      cases n with
      | zero => exact Or.inl h
      | succ m => exact Or.inr ⟨m, h⟩

theorem tokenMatch_pct_nil (c : Str) : tokenMatch [.pct] c = true := by
  show anySuffix (fun c' => tokenMatch [] c') c = true
  rw [anySuffix_iff]
  refine ⟨c.length, ?_⟩
  rw [List.drop_length]
  rfl

/-- A literal token consumes exactly one content character up to ASCII case. -/
theorem tokenMatch_lit_iff (a : Char) (ts : List LikeTok) (c : Str) :
    tokenMatch (.lit a :: ts) c = true ↔
      ∃ x cs, c = x :: cs ∧ lowerChar a = lowerChar x ∧ tokenMatch ts cs = true := by
  cases c with
  | nil =>
    show false = true ↔ _
    simp
  | cons x cs =>
    show (decide (lowerChar a = lowerChar x) && tokenMatch ts cs) = true ↔ _
    rw [Bool.and_eq_true, decide_eq_true_eq]
    constructor
    · rintro ⟨h1, h2⟩
      exact ⟨x, cs, rfl, h1, h2⟩
    · rintro ⟨x', cs', heq, hl, hm⟩
      have hx : x' = x := (List.cons_eq_cons.mp heq.symm).1
      have hcs : cs' = cs := (List.cons_eq_cons.mp heq.symm).2
      subst hx
      subst hcs
      exact ⟨hl, hm⟩

/-- A run of literal tokens consumes a case-insensitive copy of the
corresponding characters from the front of the content. -/
theorem tokenMatch_lits_append (q : Str) (ts : List LikeTok) (c : Str) :
    tokenMatch (q.map LikeTok.lit ++ ts) c = true ↔
      ∃ m c', c = m ++ c' ∧ m.map lowerChar = q.map lowerChar ∧
        tokenMatch ts c' = true := by
  induction q generalizing c with
  | nil =>
    show tokenMatch ts c = true ↔ _
    constructor
    · intro h
      exact ⟨[], c, rfl, rfl, h⟩
    · rintro ⟨m, c', heq, hmap, h⟩
      have hm : m = [] := List.map_eq_nil_iff.mp hmap
      rw [hm] at heq
      rw [heq]
      exact h
  | cons ch q' ih =>
    show tokenMatch (.lit ch :: (q'.map LikeTok.lit ++ ts)) c = true ↔ _
    rw [tokenMatch_lit_iff]
    constructor
    · rintro ⟨x, cs, rfl, hl, hm⟩
      obtain ⟨m, c', rfl, hmap, hp⟩ := (ih cs).mp hm
      exact ⟨x :: m, c', rfl, by simp [hmap, hl.symm], hp⟩
    · rintro ⟨m, c', heq, hmap, hp⟩
      cases m with
      | nil => simp at hmap
      | cons y m' =>
        rw [List.map_cons, List.map_cons] at hmap
        have hy : lowerChar ch = lowerChar y := (List.cons_eq_cons.mp hmap).1.symm
        have hm' : m'.map lowerChar = q'.map lowerChar := (List.cons_eq_cons.mp hmap).2
        refine ⟨y, m' ++ c', by simpa using heq, hy, ?_⟩
        exact (ih (m' ++ c')).mpr ⟨m', c', rfl, hm', hp⟩

/-- Tokenizing the escaped query yields exactly its literal tokens. -/
theorem likeTokens_escaped (q : Str) (p : Str) :
    likeTokensF false (escapeLikeChars q ++ p) =
      q.map LikeTok.lit ++ likeTokensF false p := by
  induction q with
  | nil => rfl
  | cons ch q' ih =>
    have hstep : escapeLikeChars (ch :: q') ++ p =
        escChar ch ++ (escapeLikeChars q' ++ p) := by
      show (escChar ch ++ escapeLikeChars q') ++ p = _
      rw [List.append_assoc]
    rw [hstep]
    unfold escChar
    by_cases hs : ch = '\\' ∨ ch = '%' ∨ ch = '_'
    · rw [if_pos hs]
      show likeTokensF false ('\\' :: (ch :: (escapeLikeChars q' ++ p))) = _
      have h1 : likeTokensF false ('\\' :: (ch :: (escapeLikeChars q' ++ p))) =
          likeTokensF true (ch :: (escapeLikeChars q' ++ p)) := rfl
      have h2 : likeTokensF true (ch :: (escapeLikeChars q' ++ p)) =
          .lit ch :: likeTokensF false (escapeLikeChars q' ++ p) := rfl
      rw [h1, h2, ih]
      rfl
    · rw [if_neg hs]
      push_neg at hs
      obtain ⟨h1, h2, h3⟩ := hs
      show likeTokensF false (ch :: (escapeLikeChars q' ++ p)) = _
      rw [likeTokensF_lit _ h1 h2 h3, ih]
      rfl

/-- The LIKE pattern built by the search route: `'%' + escapeLike(q) + '%'`. -/
def likePattern (q : Str) : Str := '%' :: (escapeLike q ++ ['%'])

/-- `q` occurs in `c` as a substring up to ASCII case. -/
def containsCI (q c : Str) : Prop :=
  ∃ a m b, c = a ++ m ++ b ∧ m.map lowerChar = q.map lowerChar

/-- `GET /api/search`: entries whose content matches the escaped LIKE
pattern, restricted to the time window and optional type, ordered
`(timestamp DESC, id DESC)`, hard-capped at 50 results. -/
def searchQuery (store : List Log) (q : Str) (startUtc endUtc : Int)
    (ty : Option LogType) : List Log :=
  ((sortLogs store).filter (fun l =>
    likeMatch (likePattern q) l.content &&
    decide (startUtc ≤ l.timestamp) && decide (l.timestamp ≤ endUtc) &&
    (match ty with | none => true | some t => decide (l.type = t)))).take 50

/-- The store of the C7 scenario: exactly one entry contains `"100% complete"`;
the other contains `"100 percent complete"`, which a wildcard `%` would match. -/
def demoSearchStore : List Log :=
  [⟨['A'], .activity, "100% complete".toList, 10, none, 0, 0⟩,
   ⟨['B'], .activity, "100 percent complete".toList, 20, none, 0, 0⟩]

/-- C7: LIKE metacharacters in the search query are escaped so the query is
matched as a literal substring of entry content (up to SQLite LIKE's ASCII
case folding, with no wildcard behavior), and in particular searching
`q="100%"` against a store whose only matching entry contains
`"100% complete"` returns exactly that one entry — the percent sign does
not act as a wildcard. -/
theorem search_escapes_like :
    (∀ q c : Str, likeMatch (likePattern q) c = true ↔ containsCI q c) ∧
    searchQuery demoSearchStore "100%".toList 0 100 none =
      [⟨['A'], .activity, "100% complete".toList, 10, none, 0, 0⟩] := by
  constructor
  · intro q c
    unfold likeMatch likePattern containsCI
    have htok : likeTokens ('%' :: (escapeLike q ++ ['%'])) =
        .pct :: (q.map LikeTok.lit ++ [.pct]) := by
      unfold likeTokens
      have h1 : likeTokensF false ('%' :: (escapeLike q ++ ['%'])) =
          .pct :: likeTokensF false (escapeLike q ++ ['%']) := rfl
      rw [h1, escapeLike_eq, likeTokens_escaped]
      rfl
    rw [htok]
    have hpct : tokenMatch (.pct :: (q.map LikeTok.lit ++ [.pct])) c =
        anySuffix (fun c' => tokenMatch (q.map LikeTok.lit ++ [.pct]) c') c := rfl
    rw [hpct, anySuffix_iff]
    constructor
    · rintro ⟨n, h⟩
      obtain ⟨m, c', heq, hmap, _⟩ := (tokenMatch_lits_append q [.pct] (c.drop n)).mp h
      refine ⟨c.take n, m, c', ?_, hmap⟩
      conv_lhs => rw [← List.take_append_drop n c]
      rw [heq, List.append_assoc]
    · rintro ⟨a, m, b, heq, hmap⟩
      refine ⟨a.length, ?_⟩
      apply (tokenMatch_lits_append q [.pct] _).mpr
      refine ⟨m, b, ?_, hmap, tokenMatch_pct_nil b⟩
      rw [heq, List.append_assoc, List.drop_left]
  · decide
/-! ### Default search window (GET /api/search without a date)

Without an explicit date the route computes
`today = format(now, "yyyy-MM-dd")` and
`start90 = format(subDays(now, 90), "yyyy-MM-dd")` — both day strings come
from the **server's ambient timezone**, since date-fns `format` uses the
runtime's local zone (the stats route, by contrast, converts with
`toZonedTime(now, tz)` first) — and then
`startUtc = fromZonedTime(start90 + "T00:00:00", tz)`,
`endUtc = fromZonedTime(today + "T23:59:59", tz)` in the caller's zone.
Timezones are modelled as fixed-offset zones (such as the resolvable IANA
zones `Etc/GMT-9` or `UTC`); calendar days are day numbers since the epoch.
On fixed-offset zones date-fns `subDays(now, 90)` shifts the instant by
exactly `90 * 86400000` ms. -/

def dayMs : Int := 86400000

/-- A fixed-offset timezone: local wall time = UTC + `offsetMs`. -/
structure FixedZone where
  offsetMs : Int
deriving DecidableEq, Repr

/-- `fromZonedTime` on a fixed-offset zone: the UTC instant of local
wall-clock time `msOfDay` on calendar day `d` of the zone. -/
def fromZonedTime (tz : FixedZone) (d : Int) (msOfDay : Int) : Int :=
  d * dayMs + msOfDay - tz.offsetMs

/-- The calendar day containing a UTC instant as seen in the zone — what
`format(instant, "yyyy-MM-dd")` produces for a runtime in that zone. -/
def localDay (tz : FixedZone) (t : Int) : Int := (t + tz.offsetMs).fdiv dayMs

/-- The `[startUtc, endUtc]` window of the default (date-less) search:
day strings taken in the server's ambient zone, boundaries interpreted in
the caller's zone. -/
def defaultSearchWindow (serverTz tz : FixedZone) (now : Int) : Int × Int :=
  (fromZonedTime tz (localDay serverTz (now - 90 * dayMs)) 0,
   fromZonedTime tz (localDay serverTz now) 86399000)

/-- Modelled from the spec: the window C8 claims — today's date and the
date 90 days earlier *as seen in the caller's timezone*, boundaries in the
caller's timezone.  The code itself is not in terms of the caller's zone
for the day strings; this definition follows the spec's words for the
refinement comparison. -/
def claimedSearchWindow (tz : FixedZone) (now : Int) : Int × Int :=
  (fromZonedTime tz (localDay tz now - 90) 0,
   fromZonedTime tz (localDay tz now) 86399000)

/-- The date-less search: the default window feeding the search query. -/
def searchDefault (serverTz tz : FixedZone) (now : Int) (store : List Log)
    (q : Str) (ty : Option LogType) : List Log :=
  searchQuery store q (defaultSearchWindow serverTz tz now).1
    (defaultSearchWindow serverTz tz now).2 ty

/-- C8 counterexample: server runtime in `UTC` (offset 0), caller timezone
`Etc/GMT-9`-style `+09:00` (offset 32400000 ms, e.g. Asia/Tokyo), at the
instant 72000000 ms (1970-01-01T20:00Z, already Jan 2 in the caller's
zone): the window the code computes differs from the window the claim
describes, because the day strings come from the server's zone, where it
is still Jan 1. -/
theorem search_window_counterexample :
    defaultSearchWindow ⟨0⟩ ⟨32400000⟩ 72000000 ≠
      claimedSearchWindow ⟨32400000⟩ 72000000 := by decide

/-- C8 (amended): for every date-less search, the window is a rolling
90-day range whose day boundaries are computed from today's date (and the
date 90 days earlier) as seen in the **server's ambient** timezone, with
each boundary then interpreted in the caller's supplied timezone — local
midnight of the earlier day through local 23:59:59 of today's server-zone
date — and results are hard-capped at 50 and restricted to the window. -/
theorem search_default_window (serverTz tz : FixedZone) (now : Int)
    (store : List Log) (q : Str) (ty : Option LogType) :
    defaultSearchWindow serverTz tz now =
      (fromZonedTime tz (localDay serverTz now - 90) 0,
       fromZonedTime tz (localDay serverTz now) 86399000) ∧
    (searchDefault serverTz tz now store q ty).length ≤ 50 ∧
    ∀ l ∈ searchDefault serverTz tz now store q ty,
      (defaultSearchWindow serverTz tz now).1 ≤ l.timestamp ∧
      l.timestamp ≤ (defaultSearchWindow serverTz tz now).2 := by
  refine ⟨?_, ?_, ?_⟩
  · unfold defaultSearchWindow
    have hday : localDay serverTz (now - 90 * dayMs) = localDay serverTz now - 90 := by
      unfold localDay
      rw [Int.fdiv_eq_ediv _ (by decide : (0 : Int) ≤ dayMs),
        Int.fdiv_eq_ediv _ (by decide : (0 : Int) ≤ dayMs)]
      have h : now - 90 * dayMs + serverTz.offsetMs =
          (now + serverTz.offsetMs) + (-90) * dayMs := by ring
      rw [h, Int.add_mul_ediv_right _ _ (by decide : dayMs ≠ 0)]
      ring
    rw [hday]
  · exact List.length_take_le _ _
  · intro l hl
    unfold searchDefault searchQuery at hl
    have hl2 := List.take_subset _ _ hl
    have hcond := (List.mem_filter.mp hl2).2
    simp only [Bool.and_eq_true, decide_eq_true_eq] at hcond
    exact ⟨hcond.1.1.2, hcond.1.2⟩

/-! ### Recent bookmark URLs (GET /api/stats) -/

/-- The ordering of the recent-bookmarks query: `orderBy(desc(logs.timestamp))`
only — no id tie-break. -/
def tsDesc (a b : Log) : Prop := b.timestamp ≤ a.timestamp

instance : DecidableRel tsDesc := fun a b =>
  inferInstanceAs (Decidable (b.timestamp ≤ a.timestamp))

/-- `ORDER BY timestamp DESC` over rows. -/
def sortByTsDesc (store : List Log) : List Log := List.insertionSort tsDesc store

/-- The defensive url extraction of the stats route: a `url` key must exist
in the metadata object and its value must not be `null`; the subsequent
`.filter((url) => url !== null)` drops the rest. -/
def bookmarkUrl (l : Log) : Option Str :=
  match l.metadata with
  | none => none
  | some m =>
    match List.lookup "url".toList m with
    | some (some s) => some s
    | _ => none

/-- `recentUrls`: select the metadata of the 10 most-recent bookmark-type
entries (timestamp descending, `LIMIT 10`), then extract and keep the
non-null urls. -/
def recentUrls (store : List Log) : List Str :=
  ((sortByTsDesc (store.filter (fun l => decide (l.type = .bookmark)))).take 10).filterMap
    bookmarkUrl

/-- A store with ten url-bearing bookmarks (timestamps 0..9) and one newer
bookmark without a url (timestamp 10). -/
def urlSlotStore : List Log :=
  (List.range 10).map (fun i =>
    ⟨[Char.ofNat (65 + i)], .bookmark, ['x'], (i : Int),
      some [("url".toList, some ['u'])], 0, 0⟩) ++
    [⟨['Z'], .bookmark, ['x'], 10, none, 0, 0⟩]

/-- C10: `recentUrls` selects the 10 most-recent bookmark entries first and
only then filters for a url, so a url-less bookmark still consumes one of
the 10 slots: at most 10 urls are ever returned, and there is a store with
at least 10 url-bearing bookmarks for which fewer than 10 urls come back. -/
theorem recent_urls_slots :
    (∀ store : List Log, (recentUrls store).length ≤ 10) ∧
    (∃ store : List Log,
      10 ≤ (store.filter (fun l =>
        decide (l.type = .bookmark) && (bookmarkUrl l).isSome)).length ∧
      (recentUrls store).length < 10) := by
  constructor
  · intro store
    unfold recentUrls
    have h1 := List.length_filterMap_le bookmarkUrl
      ((sortByTsDesc (store.filter (fun l => decide (l.type = .bookmark)))).take 10)
    have h2 := List.length_take_le 10
      (sortByTsDesc (store.filter (fun l => decide (l.type = .bookmark))))
    omega
  · exact ⟨urlSlotStore, by decide, by decide⟩

end LifeLog
